import Mathlib

/-!
Verification of the news ingestion and search pipeline
(fetcher / article store / incremental indexer / search & personalization API).

The Python sources are shallowly embedded: pure per-message and per-tick
processing becomes Lean functions over explicit state (lists of records,
string watermark, rational clocks/vectors); external collaborators that the
specification declares out of scope (the HTML extractor, the MD5 digest,
the embedding model, the event-loop clock) are abstract function parameters.
-/

namespace Crawler

/-! ## Article store model (crawler/store.py, crawler/parser.py) -/

/-- Result of the external `parse_html` extractor (crawler/parser.py):
the dict it returns, with the canonical-URL fallback to the request URL
already applied inside the extractor. -/
structure Parsed where
  url : String
  canonical_url : String
  title : String
  body : String
  author : Option String
  published_at : Option String
deriving DecidableEq

/-- A raw-page message as published on the queue: `{url, html, fetched_time}`. -/
structure RawMsg where
  url : String
  html : String
  fetched_time : String
deriving DecidableEq

/-- An article record in the document store: the fields of the document built
by `process_message` in crawler/store.py (the store-assigned `_id` is not
modelled).  Note `tags` is always `[]` there: `parsed.get("tags", [])` on a
parser output that has no `tags` key. -/
structure Article where
  url : String
  canonical_url : String
  source : String
  title : String
  body : String
  author : Option String
  tags : List String
  published_at : Option String
  fetched_at : String
  hash : String
  updated : String
deriving DecidableEq

/-- The document built by `process_message` (crawler/store.py, lines 38-61) from a
raw message: `parse_html` is the external extractor, `md5` the external hex digest
of the UTF-8 body bytes, `urlhost` the `urlparse(...).netloc` host extractor, and
`now` the value of `datetime.utcnow().isoformat() + "Z"` at processing time. -/
def build_doc (parse_html : String → String → Parsed) (md5 : String → String)
    (urlhost : String → String) (now : String) (msg : RawMsg) : Article :=
  let parsed := parse_html msg.html msg.url
  let body_html := parsed.body
  let content_hash := md5 body_html
  let canonical := parsed.canonical_url
  { url := msg.url
    canonical_url := canonical
    source := urlhost canonical
    title := parsed.title
    body := body_html
    author := parsed.author
    tags := []
    published_at := parsed.published_at
    fetched_at := msg.fetched_time
    hash := content_hash
    updated := now }

/-- `update_one({canonical_url, hash}, {"$set": doc}, upsert=True)`: replace the
first record matching the selector with `doc` (the `$set` document carries every
field), or append `doc` when no record matches. -/
def update_one_upsert (doc : Article) : List Article → List Article
  | [] => [doc]
  | r :: rest =>
    if r.canonical_url = doc.canonical_url ∧ r.hash = doc.hash then
      doc :: rest
    else
      r :: update_one_upsert doc rest

/-- One delivery of a raw-page message to the article-store consumer
(`process_message` in crawler/store.py) at wall-clock `now`. -/
def process_message (parse_html : String → String → Parsed) (md5 : String → String)
    (urlhost : String → String) (now : String) (store : List Article)
    (msg : RawMsg) : List Article :=
  update_one_upsert (build_doc parse_html md5 urlhost now msg) store

/-- The identity key `(canonical_url, hash)` that a raw message maps to. -/
def msg_key (parse_html : String → String → Parsed) (md5 : String → String)
    (msg : RawMsg) : String × String :=
  ((parse_html msg.html msg.url).canonical_url, md5 (parse_html msg.html msg.url).body)

/-- Number of records in the store whose identity key `(canonical_url, hash)`
equals `(c, h)`. -/
def countKey (store : List Article) (c h : String) : Nat :=
  (store.filter (fun r => r.canonical_url = c ∧ r.hash = h)).length

/-- Deliver the same raw message repeatedly, once per element of `nows`
(the wall-clock instants of the successive deliveries). -/
def deliver_many (parse_html : String → String → Parsed) (md5 : String → String)
    (urlhost : String → String) (nows : List String) (store : List Article)
    (msg : RawMsg) : List Article :=
  nows.foldl (fun s now => process_message parse_html md5 urlhost now s msg) store

theorem countKey_update_one_upsert (doc : Article) (store : List Article) :
    countKey (update_one_upsert doc store) doc.canonical_url doc.hash =
      max 1 (countKey store doc.canonical_url doc.hash) := by
  induction store with
  | nil => simp [update_one_upsert, countKey]
  | cons r rest ih =>
    by_cases h : r.canonical_url = doc.canonical_url ∧ r.hash = doc.hash
    · simp only [update_one_upsert, if_pos h, countKey, List.filter]
      have hd : (decide (doc.canonical_url = doc.canonical_url ∧ doc.hash = doc.hash)) = true := by
        simp
      have hr : (decide (r.canonical_url = doc.canonical_url ∧ r.hash = doc.hash)) = true := by
        simp [h.1, h.2]
      simp [hd, hr, countKey, List.filter]
    · simp only [update_one_upsert, if_neg h, countKey, List.filter]
      have hr : (decide (r.canonical_url = doc.canonical_url ∧ r.hash = doc.hash)) = false := by
        simpa using h
      simp only [hr]
      exact ih

theorem build_doc_key (parse_html : String → String → Parsed) (md5 : String → String)
    (urlhost : String → String) (now : String) (msg : RawMsg) :
    (build_doc parse_html md5 urlhost now msg).canonical_url =
        (msg_key parse_html md5 msg).1 ∧
      (build_doc parse_html md5 urlhost now msg).hash = (msg_key parse_html md5 msg).2 := by
  constructor <;> rfl

theorem countKey_process_message (parse_html : String → String → Parsed)
    (md5 : String → String) (urlhost : String → String) (now : String)
    (store : List Article) (msg : RawMsg) :
    countKey (process_message parse_html md5 urlhost now store msg)
        (msg_key parse_html md5 msg).1 (msg_key parse_html md5 msg).2 =
      max 1 (countKey store (msg_key parse_html md5 msg).1 (msg_key parse_html md5 msg).2) :=
  countKey_update_one_upsert (build_doc parse_html md5 urlhost now msg) store

theorem countKey_deliver_many_of_one (parse_html : String → String → Parsed)
    (md5 : String → String) (urlhost : String → String) (msg : RawMsg) :
    ∀ (nows : List String) (store : List Article),
      countKey store (msg_key parse_html md5 msg).1 (msg_key parse_html md5 msg).2 = 1 →
      countKey (deliver_many parse_html md5 urlhost nows store msg)
        (msg_key parse_html md5 msg).1 (msg_key parse_html md5 msg).2 = 1 := by
  intro nows
  induction nows with
  | nil => intro store h; simpa [deliver_many] using h
  | cons n rest ih =>
    intro store h
    have hstep := countKey_process_message parse_html md5 urlhost n store msg
    rw [h] at hstep
    have : deliver_many parse_html md5 urlhost (n :: rest) store msg =
        deliver_many parse_html md5 urlhost rest
          (process_message parse_html md5 urlhost n store msg) msg := rfl
    rw [this]
    exact ih _ (by simpa using hstep)

/-- C2: delivering the same raw-page message any number n ≥ 1 of times (at
arbitrary wall-clock instants `nows`) to the article-store consumer leaves
exactly one article record for its `(canonical_url, hash)` pair, provided the
store did not already hold two records for that pair; repeated delivery never
creates a second record. -/
theorem dedup_idempotent (parse_html : String → String → Parsed)
    (md5 : String → String) (urlhost : String → String) (nows : List String)
    (store : List Article) (msg : RawMsg) (hn : nows ≠ [])
    (hstore : countKey store (msg_key parse_html md5 msg).1
      (msg_key parse_html md5 msg).2 ≤ 1) :
    countKey (deliver_many parse_html md5 urlhost nows store msg)
      (msg_key parse_html md5 msg).1 (msg_key parse_html md5 msg).2 = 1 := by
  match nows with
  | [] => exact absurd rfl hn
  | n :: rest =>
    have hstep := countKey_process_message parse_html md5 urlhost n store msg
    have hone : countKey (process_message parse_html md5 urlhost n store msg)
        (msg_key parse_html md5 msg).1 (msg_key parse_html md5 msg).2 = 1 := by
      rw [hstep]; omega
    have : deliver_many parse_html md5 urlhost (n :: rest) store msg =
        deliver_many parse_html md5 urlhost rest
          (process_message parse_html md5 urlhost n store msg) msg := rfl
    rw [this]
    exact countKey_deliver_many_of_one parse_html md5 urlhost msg rest _ hone

/-! Sample concrete instantiations of the external collaborators, used by the
closed witness and counterexample theorems below. -/

def phSample : String → String → Parsed := fun h u => ⟨u, u, "T", h, none, none⟩

def md5Sample : String → String := fun s => s ++ "#md5"

def uhSample : String → String := fun s => s

def msgSample : RawMsg := ⟨"http://a.example/x", "<p>B</p>", "2024-01-01T00:00:00Z"⟩

theorem dedup_idempotent_witness :
    countKey (deliver_many phSample md5Sample uhSample
        ["2024-01-02T00:00:00Z", "2024-01-03T00:00:00Z"] [] msgSample)
      (msg_key phSample md5Sample msgSample).1 (msg_key phSample md5Sample msgSample).2 = 1 :=
  dedup_idempotent phSample md5Sample uhSample _ _ msgSample (by decide) (by decide)

/-- C5 counterexample: processing a raw message whose `(canonical_url, hash)`
pair already has a record is NOT a no-op.  With the record created at
`t1 = 2024-01-01T01:00:00Z` and the same message redelivered at
`t2 = 2024-01-02T01:00:00Z`, the stored record's `updated` field changes from
`t1` to `t2` (the `$set` document carries a fresh `updated`), refuting the
claim that no field of the record is modified. -/
theorem upsert_noop_counterexample :
    process_message phSample md5Sample uhSample "2024-01-02T01:00:00Z"
        [build_doc phSample md5Sample uhSample "2024-01-01T01:00:00Z" msgSample] msgSample ≠
      [build_doc phSample md5Sample uhSample "2024-01-01T01:00:00Z" msgSample] ∧
    (process_message phSample md5Sample uhSample "2024-01-02T01:00:00Z"
        [build_doc phSample md5Sample uhSample "2024-01-01T01:00:00Z" msgSample]
        msgSample).map Article.updated = ["2024-01-02T01:00:00Z"] := by
  constructor
  · intro h
    have := congrArg (fun l => l.map Article.updated) h
    simp [process_message, update_one_upsert, build_doc, phSample, md5Sample,
      uhSample, msgSample] at this
  · rfl

/-- C5 (amended): processing a raw message whose `(canonical_url, hash)` pair
already has a record does not insert a new record; it replaces the first
matching record with the freshly built document — whose `updated` field is the
processing time `now` — and leaves every other record (the frame) unchanged. -/
theorem upsert_overwrites_existing (parse_html : String → String → Parsed)
    (md5 : String → String) (urlhost : String → String) (now : String)
    (store : List Article) (msg : RawMsg)
    (hex : ∃ r ∈ store, r.canonical_url = (msg_key parse_html md5 msg).1 ∧
      r.hash = (msg_key parse_html md5 msg).2) :
    ∃ pre r post, store = pre ++ r :: post ∧
      (∀ x ∈ pre, ¬(x.canonical_url = (msg_key parse_html md5 msg).1 ∧
        x.hash = (msg_key parse_html md5 msg).2)) ∧
      r.canonical_url = (msg_key parse_html md5 msg).1 ∧
      r.hash = (msg_key parse_html md5 msg).2 ∧
      process_message parse_html md5 urlhost now store msg =
        pre ++ build_doc parse_html md5 urlhost now msg :: post ∧
      (build_doc parse_html md5 urlhost now msg).updated = now := by
  induction store with
  | nil => exact absurd hex (by simp)
  | cons r rest ih =>
    by_cases h : r.canonical_url = (msg_key parse_html md5 msg).1 ∧
        r.hash = (msg_key parse_html md5 msg).2
    · refine ⟨[], r, rest, by simp, by simp, h.1, h.2, ?_, rfl⟩
      show update_one_upsert (build_doc parse_html md5 urlhost now msg) (r :: rest) = _
      rw [update_one_upsert,
        if_pos (show r.canonical_url = (build_doc parse_html md5 urlhost now msg).canonical_url ∧
          r.hash = (build_doc parse_html md5 urlhost now msg).hash from h)]
      simp
    · have hex' : ∃ x ∈ rest, x.canonical_url = (msg_key parse_html md5 msg).1 ∧
          x.hash = (msg_key parse_html md5 msg).2 := by
        rcases hex with ⟨x, hx, hk⟩
        rcases List.mem_cons.mp hx with h1 | h1
        · exact absurd (h1 ▸ hk) h
        · exact ⟨x, h1, hk⟩
      rcases ih hex' with ⟨pre, rr, post, heq, hpre, hk1, hk2, hres, hupd⟩
      refine ⟨r :: pre, rr, post, by rw [heq]; simp, ?_, hk1, hk2, ?_, hupd⟩
      · intro x hx
        rcases List.mem_cons.mp hx with h1 | h1
        · exact h1 ▸ h
        · exact hpre x h1
      · show update_one_upsert (build_doc parse_html md5 urlhost now msg) (r :: rest) = _
        rw [update_one_upsert,
          if_neg (show ¬(r.canonical_url = (build_doc parse_html md5 urlhost now msg).canonical_url ∧
            r.hash = (build_doc parse_html md5 urlhost now msg).hash) from h)]
        show r :: process_message parse_html md5 urlhost now rest msg = _
        rw [hres]
        simp

theorem upsert_overwrites_existing_witness :
    ∃ pre r post,
      [build_doc phSample md5Sample uhSample "2024-01-01T01:00:00Z" msgSample] =
        pre ++ r :: post ∧
      (∀ x ∈ pre, ¬(x.canonical_url = (msg_key phSample md5Sample msgSample).1 ∧
        x.hash = (msg_key phSample md5Sample msgSample).2)) ∧
      r.canonical_url = (msg_key phSample md5Sample msgSample).1 ∧
      r.hash = (msg_key phSample md5Sample msgSample).2 ∧
      process_message phSample md5Sample uhSample "2024-01-02T01:00:00Z"
          [build_doc phSample md5Sample uhSample "2024-01-01T01:00:00Z" msgSample] msgSample =
        pre ++ build_doc phSample md5Sample uhSample "2024-01-02T01:00:00Z" msgSample :: post ∧
      (build_doc phSample md5Sample uhSample "2024-01-02T01:00:00Z" msgSample).updated =
        "2024-01-02T01:00:00Z" :=
  upsert_overwrites_existing phSample md5Sample uhSample "2024-01-02T01:00:00Z"
    [build_doc phSample md5Sample uhSample "2024-01-01T01:00:00Z" msgSample] msgSample
    ⟨build_doc phSample md5Sample uhSample "2024-01-01T01:00:00Z" msgSample,
      by simp, by constructor <;> rfl⟩

/-! ## Click feedback and user-profile model (crawler/api.py, `click`) -/

/-- One click for a user: the read-modify-write performed by the `click`
endpoint (crawler/api.py, lines 105-124) on the user's profile row, with vector
entries modelled as rationals.  `none` means no profile row exists; the code
then inserts `(vec, 1)`.  Otherwise `cnt` is incremented first and the new
interest vector is the element-wise `(o*(cnt-1) + v)/cnt` over
`zip(old_vec, vec)`. -/
def clickStep : Option (List ℚ × ℕ) → List ℚ → List ℚ × ℕ
  | none, vec => (vec, 1)
  | some (old_vec, cnt0), vec =>
    let cnt := cnt0 + 1
    (List.zipWith (fun o v => (o * ((cnt - 1 : ℕ) : ℚ) + v) / ((cnt : ℕ) : ℚ))
      old_vec vec, cnt)

/-- A serial sequence of clicks for one user, starting from profile state `p`;
after each click the endpoint persists the new `(interest, cnt)` row. -/
def clickSeq (p : Option (List ℚ × ℕ)) (vecs : List (List ℚ)) : Option (List ℚ × ℕ) :=
  vecs.foldl (fun q v => some (clickStep q v)) p

/-- Element-wise sum of a nonempty list of clicked vectors. -/
def sumVecs : List (List ℚ) → List ℚ
  | [] => []
  | v :: rest => rest.foldl (fun acc w => List.zipWith (· + ·) acc w) v

/-- The arithmetic mean `(1/k)·Σ vi` of the clicked vectors, `k` their number. -/
def meanVec (vecs : List (List ℚ)) : List ℚ :=
  (sumVecs vecs).map (fun x => x / (vecs.length : ℚ))

theorem zipWith_avg (k : ℚ) (hk : k ≠ 0) : ∀ (S V : List ℚ),
    List.zipWith (fun o v => (o * k + v) / (k + 1)) (S.map (fun x => x / k)) V =
      (List.zipWith (· + ·) S V).map (fun x => x / (k + 1)) := by
  intro S
  induction S with
  | nil => intro V; simp
  | cons s S ih =>
    intro V
    cases V with
    | nil => simp
    | cons v V => simp [ih, div_mul_cancel₀ s hk]

theorem clickSeq_partial : ∀ (rest : List (List ℚ)) (S : List ℚ) (k : ℕ), 1 ≤ k →
    (∀ v ∈ rest, v.length = S.length) →
    clickSeq (some (S.map (fun x => x / (k : ℚ)), k)) rest =
      some ((rest.foldl (fun acc w => List.zipWith (· + ·) acc w) S).map
        (fun x => x / ((k + rest.length : ℕ) : ℚ)), k + rest.length) := by
  intro rest
  induction rest with
  | nil => intro S k hk hlen; simp [clickSeq]
  | cons v rest ih =>
    intro S k hk hlen
    have hk0 : (k : ℚ) ≠ 0 := by
      have : k ≠ 0 := by omega
      exact_mod_cast this
    have hstep : clickStep (some (S.map (fun x => x / (k : ℚ)), k)) v =
        ((List.zipWith (· + ·) S v).map (fun x => x / (((k + 1 : ℕ)) : ℚ)), k + 1) := by
      show (List.zipWith (fun o w => (o * ((k + 1 - 1 : ℕ) : ℚ) + w) / (((k + 1 : ℕ)) : ℚ))
        (S.map (fun x => x / (k : ℚ))) v, k + 1) = _
      have h1 : (k + 1 - 1 : ℕ) = k := by omega
      rw [h1]
      have h2 : ((k + 1 : ℕ) : ℚ) = (k : ℚ) + 1 := by push_cast; ring
      rw [h2]
      rw [zipWith_avg (k : ℚ) hk0 S v]
    have hunf : clickSeq (some (S.map (fun x => x / (k : ℚ)), k)) (v :: rest) =
        clickSeq (some (clickStep (some (S.map (fun x => x / (k : ℚ)), k)) v)) rest := rfl
    rw [hunf, hstep]
    have hlen' : ∀ w ∈ rest, w.length = (List.zipWith (· + ·) S v).length := by
      intro w hw
      have hv : v.length = S.length := hlen v (by simp)
      rw [List.length_zipWith, hv, min_self]
      exact hlen w (by simp [hw])
    rw [ih (List.zipWith (· + ·) S v) (k + 1) (by omega) hlen']
    have hlc : k + 1 + rest.length = k + (v :: rest).length := by
      simp [List.length_cons]; omega
    rw [show ((v :: rest).foldl (fun acc w => List.zipWith (· + ·) acc w) S) =
      (rest.foldl (fun acc w => List.zipWith (· + ·) acc w) (List.zipWith (· + ·) S v)) from rfl]
    rw [hlc]

/-- C3: after a serial sequence of `k ≥ 1` clicks on documents with vectors
`v1…vk` (all of dimension `d`), starting from no profile row, the stored
profile is exactly `((1/k)·Σ vi, k)`: the interest vector is the arithmetic
mean of the clicked vectors (exactly, over ℚ — the idealisation of the
floating-point tolerance) and `cnt = k`.  The first click inserts `(v1, 1)`
and each later click maps `(old, cnt)` to `((old·cnt + v)/(cnt+1), cnt+1)`. -/
theorem click_mean_law (vecs : List (List ℚ)) (d : ℕ) (hne : vecs ≠ [])
    (hd : ∀ v ∈ vecs, v.length = d) :
    clickSeq none vecs = some (meanVec vecs, vecs.length) := by
  match vecs with
  | v :: rest =>
    have hv : v.length = d := hd v (by simp)
    have hstep : clickSeq none (v :: rest) = clickSeq (some (v, 1)) rest := rfl
    have hmap : v.map (fun x => x / ((1 : ℕ) : ℚ)) = v := by
      simp
    have h := clickSeq_partial rest v 1 (le_refl 1) (by
      intro w hw; rw [hv]; exact hd w (by simp [hw]))
    rw [hmap] at h
    rw [hstep, h]
    have hlen : 1 + rest.length = (v :: rest).length := by simp [Nat.add_comm]
    rw [hlen]
    rfl

theorem click_mean_law_witness :
    clickSeq none [[(1 : ℚ), 0], [0, 1]] = some (meanVec [[(1 : ℚ), 0], [0, 1]], 2) :=
  click_mean_law [[(1 : ℚ), 0], [0, 1]] 2 (by decide) (by decide)

/-- C10 counterexample: it is not the case that the 384-dimension shape is
preserved only when the two vectors have equal length.  With a stored
384-entry interest vector and a 385-entry clicked vector (lengths differ),
`zip` truncates to the shorter list and the updated vector still has length
384: the shape is preserved although the lengths differ. -/
theorem click_shape_counterexample :
    (clickStep (some (List.replicate 384 (0 : ℚ), 1)) (List.replicate 385 (0 : ℚ))).1.length =
        384 ∧
      (List.replicate 384 (0 : ℚ)).length ≠ (List.replicate 385 (0 : ℚ)).length := by
  constructor
  · show (List.zipWith _ (List.replicate 384 (0 : ℚ)) (List.replicate 385 (0 : ℚ))).length = 384
    rw [List.length_zipWith, List.length_replicate, List.length_replicate]
    omega
  · rw [List.length_replicate, List.length_replicate]
    omega

/-- C10 (amended): a click on an existing profile writes an interest vector of
length `min (length old) (length vec)` — the element-wise mean is computed only
over zipped positions, and excess entries of the longer vector are silently
dropped.  Consequently, when the stored profile has the 384-dimension shape,
that shape is preserved exactly when the clicked vector has length ≥ 384 (not
only when the two lengths are equal). -/
theorem click_zip_truncation (old_vec vec : List ℚ) (cnt : ℕ) :
    (clickStep (some (old_vec, cnt)) vec).1.length = min old_vec.length vec.length ∧
      (old_vec.length = 384 →
        ((clickStep (some (old_vec, cnt)) vec).1.length = 384 ↔ 384 ≤ vec.length)) := by
  have hlen : (clickStep (some (old_vec, cnt)) vec).1.length =
      min old_vec.length vec.length := by
    show (List.zipWith _ old_vec vec).length = _
    rw [List.length_zipWith]
  refine ⟨hlen, fun h384 => ?_⟩
  rw [hlen, h384]
  omega

theorem click_zip_truncation_witness :
    (clickStep (some ([(1 : ℚ), 2, 3], 1)) [(4 : ℚ), 5]).1.length = min 3 2 ∧
      (([(1 : ℚ), 2, 3]).length = 384 →
        ((clickStep (some ([(1 : ℚ), 2, 3], 1)) [(4 : ℚ), 5]).1.length = 384 ↔
          384 ≤ ([(4 : ℚ), 5]).length)) :=
  click_zip_truncation [(1 : ℚ), 2, 3] [(4 : ℚ), 5] 1

/-! ## Search blending model (crawler/api.py, `search`, lines 157-182) -/

/-- A base search hit as returned by the search engine: the document id (from
`hit['document']['id']`) and the optional `_ranking_score` field; scores are
modelled as rationals. -/
structure Hit where
  id : String
  ranking : Option ℚ
deriving DecidableEq

/-- A hit of the user-interest vector query: document id and its
`vector_score`. -/
structure UserHit where
  id : String
  vector_score : ℚ
deriving DecidableEq

/-- A base hit after blending: the handler adds a `score` key to the hit. -/
structure ScoredHit where
  id : String
  ranking : Option ℚ
  score : ℚ
deriving DecidableEq

/-- The `user_scores` dict `{r['document']['id']: r['vector_score'] for r in
uv_res['hits']}` (a Python dict comprehension: a later entry overrides an
earlier one with the same id), read with `.get(doc_id, 0)`. -/
def user_scores (uhits : List UserHit) (docId : String) : ℚ :=
  match uhits.reverse.find? (fun r => r.id = docId) with
  | some r => r.vector_score
  | none => 0

/-- The blended score `0.8*hit_score + 0.2*user_score`, where `hit_score` is the
hit's `_ranking_score` when the key is present and `0` otherwise. -/
def blended_score (uhits : List UserHit) (h : Hit) : ℚ :=
  (0.8 : ℚ) * h.ranking.getD 0 + (0.2 : ℚ) * user_scores uhits h.id

/-- `hit['score'] = 0.8*hit_score + 0.2*user_score` applied to one base hit. -/
def add_score (uhits : List UserHit) (h : Hit) : ScoredHit :=
  ⟨h.id, h.ranking, blended_score uhits h⟩

/-- `hits.sort(key=lambda x: x['score'], reverse=True)`: Python's stable sort,
descending by the `score` key — a stable merge sort that keeps `a` before `b`
whenever `score b ≤ score a`. -/
def sort_hits_desc (l : List ScoredHit) : List ScoredHit :=
  l.mergeSort (fun a b => decide (b.score ≤ a.score))

/-- The personalization branch of `search`: add the blended `score` to every
base hit, then resort the hit list descending by it. -/
def blend_hits (hits : List Hit) (uhits : List UserHit) : List ScoredHit :=
  sort_hits_desc (hits.map (add_score uhits))

/-- Pagination / bookkeeping metadata of the base search response
(`found`, `page`, `search_time_ms`, ... of `ts_result`). -/
structure SearchMeta where
  found : ℕ
  page : ℕ
  search_time_ms : ℕ
deriving DecidableEq

/-- The base search response: metadata plus the base hit list. -/
structure BaseResponse where
  meta : SearchMeta
  hits : List Hit

/-- The response returned when blending applies: metadata plus scored hits. -/
structure BlendedResponse where
  meta : SearchMeta
  hits : List ScoredHit

/-- `ts_result['hits'] = hits` after the in-place blend: only the hit list of
the response is replaced; every other field is passed through. -/
def personalize (resp : BaseResponse) (uhits : List UserHit) : BlendedResponse :=
  ⟨resp.meta, blend_hits resp.hits uhits⟩

/-- C4: when a stored interest vector exists for `user_id`, every returned hit
carries `score = 0.8·base_score + 0.2·user_score` (base score = the hit's
ranking score, 0 when absent; user score = the user-vector query's score for
that document id, 0 when absent); the returned hit list is a permutation of
the base hit set sorted descending by that blended score; and the pagination
metadata of the base search is preserved. -/
theorem blend_correct (resp : BaseResponse) (uhits : List UserHit) :
    (personalize resp uhits).meta = resp.meta ∧
      List.Perm ((personalize resp uhits).hits.map (fun h => (h.id, h.ranking)))
        (resp.hits.map (fun h => (h.id, h.ranking))) ∧
      (∀ h ∈ (personalize resp uhits).hits,
        h.score = (0.8 : ℚ) * h.ranking.getD 0 + (0.2 : ℚ) * user_scores uhits h.id) ∧
      (personalize resp uhits).hits.Pairwise (fun a b => b.score ≤ a.score) := by
  refine ⟨rfl, ?_, ?_, ?_⟩
  · have hperm : List.Perm (blend_hits resp.hits uhits)
        (resp.hits.map (add_score uhits)) :=
      List.mergeSort_perm _ _
    have := hperm.map (fun h => (h.id, h.ranking))
    refine this.trans (List.Perm.of_eq ?_)
    rw [List.map_map]
    rfl
  · intro h hh
    have hmem : h ∈ resp.hits.map (add_score uhits) := by
      have : h ∈ (resp.hits.map (add_score uhits)).mergeSort
          (fun a b => decide (b.score ≤ a.score)) := hh
      exact List.mem_mergeSort.mp this
    rcases List.mem_map.mp hmem with ⟨g, _, hg⟩
    subst hg
    rfl
  · have h := @List.sorted_mergeSort ScoredHit
      (fun a b : ScoredHit => decide (b.score ≤ a.score))
      (fun a b c hab hbc => by
        simp only [decide_eq_true_eq] at *
        exact le_trans hbc hab)
      (fun a b => by
        rcases le_total a.score b.score with h | h <;> simp [h])
      (resp.hits.map (add_score uhits))
    exact h.imp (fun hab => by simpa using hab)

theorem blend_correct_witness :
    (personalize ⟨⟨2, 1, 5⟩, [⟨"A", some 1⟩, ⟨"B", some (9/10)⟩]⟩
        [⟨"A", 1/10⟩, ⟨"B", 9/10⟩]).meta = (⟨2, 1, 5⟩ : SearchMeta) ∧
      List.Perm ((personalize ⟨⟨2, 1, 5⟩, [⟨"A", some 1⟩, ⟨"B", some (9/10)⟩]⟩
          [⟨"A", 1/10⟩, ⟨"B", 9/10⟩]).hits.map (fun h => (h.id, h.ranking)))
        (([⟨"A", some 1⟩, ⟨"B", some (9/10)⟩] : List Hit).map (fun h => (h.id, h.ranking))) ∧
      (∀ h ∈ (personalize ⟨⟨2, 1, 5⟩, [⟨"A", some 1⟩, ⟨"B", some (9/10)⟩]⟩
          [⟨"A", 1/10⟩, ⟨"B", 9/10⟩]).hits,
        h.score = (0.8 : ℚ) * h.ranking.getD 0 +
          (0.2 : ℚ) * user_scores [⟨"A", 1/10⟩, ⟨"B", 9/10⟩] h.id) ∧
      (personalize ⟨⟨2, 1, 5⟩, [⟨"A", some 1⟩, ⟨"B", some (9/10)⟩]⟩
          [⟨"A", 1/10⟩, ⟨"B", 9/10⟩]).hits.Pairwise (fun a b => b.score ≤ a.score) :=
  blend_correct ⟨⟨2, 1, 5⟩, [⟨"A", some 1⟩, ⟨"B", some (9/10)⟩]⟩ [⟨"A", 1/10⟩, ⟨"B", 9/10⟩]

/-! ## Fetcher retry model (crawler/fetch_async.py, `fetch_and_publish`,
lines 46-85) -/

/-- What one attempt's `session.get(url, timeout=10)` produces: either a
response with an HTTP status, or a transport failure / timeout
(`aiohttp.ClientError` / `asyncio.TimeoutError`). -/
inductive AttemptOutcome where
  | resp (status : ℕ)
  | netErr
deriving DecidableEq

/-- Observable actions of `fetch_and_publish`, in order. -/
inductive FetchEv where
  | published
  | logNon200 (status : ℕ)
  | logErr (attempt : ℕ)
  | slept (secs : ℕ)
  | logFailed
deriving DecidableEq

/-- The `for attempt in range(1, max_retries + 1)` loop of `fetch_and_publish`:
`oracle a` is the outcome of the HTTP GET of attempt `a`; the fuel argument is
the number of attempts still allowed (`max_retries + 1 - attempt`).  A 200
response publishes the message and returns; any other status logs once and
returns (no publish); a transport error logs, then sleeps `2^attempt` seconds
and retries while attempts remain, and otherwise logs the final failure.
(The broker publish itself is modelled as succeeding; its failure is not
caught by this loop and the spec treats it as fatal for the URL.) -/
def fetchRun (oracle : ℕ → AttemptOutcome) : ℕ → ℕ → List FetchEv
  | 0, _ => []
  | 1, attempt =>
    match oracle attempt with
    | .resp st => if st ≠ 200 then [.logNon200 st] else [.published]
    | .netErr => [.logErr attempt, .logFailed]
  | f + 2, attempt =>
    match oracle attempt with
    | .resp st => if st ≠ 200 then [.logNon200 st] else [.published]
    | .netErr => .logErr attempt :: .slept (2 ^ attempt) :: fetchRun oracle (f + 1) (attempt + 1)

/-- `fetch_and_publish` with the default `max_retries = 3`: attempts start at 1
with 3 attempts allowed. -/
def fetch_and_publish (oracle : ℕ → AttemptOutcome) : List FetchEv :=
  fetchRun oracle 3 1

/-- Number of publishes in a trace. -/
def pubCount : List FetchEv → ℕ
  | [] => 0
  | .published :: rest => pubCount rest + 1
  | _ :: rest => pubCount rest

/-- Number of attempts a trace records: every attempt ends in exactly one of
`published`, `logNon200` or `logErr`. -/
def attemptCount : List FetchEv → ℕ
  | [] => 0
  | .published :: rest => attemptCount rest + 1
  | .logNon200 _ :: rest => attemptCount rest + 1
  | .logErr _ :: rest => attemptCount rest + 1
  | _ :: rest => attemptCount rest

theorem fetchRun_bounds (oracle : ℕ → AttemptOutcome) :
    ∀ f a, pubCount (fetchRun oracle f a) ≤ 1 ∧
      attemptCount (fetchRun oracle f a) ≤ f := by
  intro f
  induction f using Nat.strong_induction_on with
  | _ f ih =>
    match f with
    | 0 => intro a; simp [fetchRun, pubCount, attemptCount]
    | 1 =>
      intro a
      rcases h : oracle a with st | _
      · by_cases h200 : st = 200 <;>
          simp [fetchRun, h, h200, pubCount, attemptCount]
      · simp [fetchRun, h, pubCount, attemptCount]
    | f + 2 =>
      intro a
      rcases h : oracle a with st | _
      · by_cases h200 : st = 200 <;>
          simp [fetchRun, h, h200, pubCount, attemptCount]
      · have := ih (f + 1) (by omega) (a + 1)
        simp only [fetchRun, h, pubCount, attemptCount]
        omega

/-- C6: for every fetch, with `oracle` giving each attempt's GET outcome and
`j` the first attempt whose GET is not a transport failure (all attempts
before `j` fail with a transport error): a 200 response at attempt `j` yields
exactly one publish; a non-200 response at attempt `j` yields no publish, one
log of the status, and attempt `j` is the last (logged once, dropped, no
retry); a transport failure at an attempt `a < 3` is followed by a
`2^a`-second backoff sleep; transport failures on all three attempts produce
exactly the trace log-error 1, sleep 2 s, log-error 2, sleep 4 s, log-error 3,
log-failed — and no publish; at most 3 attempts and at most one publish ever
happen. -/
theorem fetch_retry_policy (oracle : ℕ → AttemptOutcome) (j : ℕ) (hj1 : 1 ≤ j)
    (hj3 : j ≤ 3) (hprev : ∀ i, 1 ≤ i → i < j → oracle i = .netErr) :
    pubCount (fetch_and_publish oracle) ≤ 1 ∧
      attemptCount (fetch_and_publish oracle) ≤ 3 ∧
      (oracle j = .resp 200 → pubCount (fetch_and_publish oracle) = 1 ∧
        attemptCount (fetch_and_publish oracle) = j) ∧
      (∀ st, st ≠ 200 → oracle j = .resp st →
        pubCount (fetch_and_publish oracle) = 0 ∧
        (fetch_and_publish oracle).count (.logNon200 st) = 1 ∧
        attemptCount (fetch_and_publish oracle) = j) ∧
      (oracle j = .netErr → j < 3 →
        FetchEv.slept (2 ^ j) ∈ fetch_and_publish oracle) ∧
      ((∀ i, 1 ≤ i → i ≤ 3 → oracle i = .netErr) →
        fetch_and_publish oracle =
          [.logErr 1, .slept 2, .logErr 2, .slept 4, .logErr 3, .logFailed]) := by
  have hb := fetchRun_bounds oracle 3 1
  refine ⟨hb.1, hb.2, ?_, ?_, ?_, ?_⟩
  · interval_cases j
    · intro h200
      simp [fetch_and_publish, fetchRun, h200, pubCount, attemptCount]
    · intro h200
      have h1 := hprev 1 (by omega) (by omega)
      simp [fetch_and_publish, fetchRun, h1, h200, pubCount, attemptCount]
    · intro h200
      have h1 := hprev 1 (by omega) (by omega)
      have h2 := hprev 2 (by omega) (by omega)
      simp [fetch_and_publish, fetchRun, h1, h2, h200, pubCount, attemptCount]
  · interval_cases j
    · intro st hst hresp
      simp [fetch_and_publish, fetchRun, hresp, hst, pubCount, attemptCount,
        List.count_cons]
    · intro st hst hresp
      have h1 := hprev 1 (by omega) (by omega)
      simp [fetch_and_publish, fetchRun, h1, hresp, hst, pubCount, attemptCount,
        List.count_cons]
    · intro st hst hresp
      have h1 := hprev 1 (by omega) (by omega)
      have h2 := hprev 2 (by omega) (by omega)
      simp [fetch_and_publish, fetchRun, h1, h2, hresp, hst, pubCount, attemptCount,
        List.count_cons]
  · interval_cases j
    · intro hne _
      simp [fetch_and_publish, fetchRun, hne]
    · intro hne _
      have h1 := hprev 1 (by omega) (by omega)
      simp [fetch_and_publish, fetchRun, h1, hne]
    · intro _ h33
      exact absurd h33 (by omega)
  · intro hall
    have h1 := hall 1 (by omega) (by omega)
    have h2 := hall 2 (by omega) (by omega)
    have h3 := hall 3 (by omega) (by omega)
    simp [fetch_and_publish, fetchRun, h1, h2, h3]

theorem fetch_retry_policy_witness :
    pubCount (fetch_and_publish (fun _ => .resp 200)) ≤ 1 ∧
      attemptCount (fetch_and_publish (fun _ => .resp 200)) ≤ 3 ∧
      ((fun _ => AttemptOutcome.resp 200) 1 = .resp 200 →
        pubCount (fetch_and_publish (fun _ => .resp 200)) = 1 ∧
        attemptCount (fetch_and_publish (fun _ => .resp 200)) = 1) ∧
      (∀ st, st ≠ 200 → (fun _ => AttemptOutcome.resp 200) 1 = .resp st →
        pubCount (fetch_and_publish (fun _ => .resp 200)) = 0 ∧
        (fetch_and_publish (fun _ => .resp 200)).count (.logNon200 st) = 1 ∧
        attemptCount (fetch_and_publish (fun _ => .resp 200)) = 1) ∧
      ((fun _ => AttemptOutcome.resp 200) 1 = .netErr → 1 < 3 →
        FetchEv.slept (2 ^ 1) ∈ fetch_and_publish (fun _ => .resp 200)) ∧
      ((∀ i, 1 ≤ i → i ≤ 3 → (fun _ => AttemptOutcome.resp 200) i = .netErr) →
        fetch_and_publish (fun _ => .resp 200) =
          [.logErr 1, .slept 2, .logErr 2, .slept 4, .logErr 3, .logFailed]) :=
  fetch_retry_policy (fun _ => .resp 200) 1 (by decide) (by decide)
    (fun i _ hi => absurd hi (by omega))

/-! ## Per-host rate limiter model (crawler/fetch_async.py,
`DomainRateLimiter.throttle`, lines 22-43)

One `throttle(domain)` call, run under the domain's mutex: read the event-loop
clock (`now`), compute `elapsed = now - last_called[domain]` and
`wait = interval - elapsed`; if `wait > 0`, `await asyncio.sleep(wait)`; then
read the clock again and store it in `last_called[domain]`.  Time is modelled
as ℚ; `slack ≥ 0` is the extra time between entering the call and the final
clock read beyond the mandatory sleep (scheduling delay plus any oversleep of
`asyncio.sleep`, which never wakes early).  Because the mutex serializes the
calls for one host, an execution is a sequence of such calls with the state
`last_called[domain]` threaded through. -/

/-- The value written to `last_called[domain]` by one `throttle` call: the
clock reading after the conditional sleep.  This is also the instant at which
the call returns and the fetch of the URL starts. -/
def throttleExit (interval last now slack : ℚ) : ℚ :=
  let elapsed := now - last
  let wait := interval - elapsed
  if 0 < wait then now + wait + slack else now + slack

/-- A serialized sequence of `throttle` calls for one domain: `calls` lists
each call's clock reading on entry and its slack; the result lists the exit
instants (= the successive values of `last_called[domain]`). -/
def throttleTrace (interval : ℚ) : ℚ → List (ℚ × ℚ) → List ℚ
  | _, [] => []
  | last, (now, slack) :: rest =>
    throttleExit interval last now slack ::
      throttleTrace interval (throttleExit interval last now slack) rest

theorem throttleExit_ge (interval last now slack : ℚ) (hs : 0 ≤ slack) :
    last + interval ≤ throttleExit interval last now slack := by
  unfold throttleExit
  by_cases h : 0 < interval - (now - last)
  · rw [if_pos h]
    linarith
  · rw [if_neg h]
    push_neg at h
    linarith

/-- C7: for every host, any two consecutive fetches that go through the
per-host rate limiter start at least `interval` seconds apart: the mutex
serializes the calls, each call waits until `now ≥ last + interval` and then
records the current clock as `last`, so consecutive exit instants (the
request start times; `slack ≥ 0` absorbs scheduler delay and `asyncio.sleep`
never waking early) always differ by at least `interval`. -/
theorem rate_limit_compliance (interval : ℚ) (last0 : ℚ) (calls : List (ℚ × ℚ))
    (hs : ∀ c ∈ calls, 0 ≤ c.2) :
    List.Chain' (fun t1 t2 => t1 + interval ≤ t2)
        (throttleTrace interval last0 calls) ∧
      (∀ t ∈ (throttleTrace interval last0 calls).head?, last0 + interval ≤ t) := by
  induction calls generalizing last0 with
  | nil => simp [throttleTrace]
  | cons c rest ih =>
    obtain ⟨now, slack⟩ := c
    have hs0 : (0 : ℚ) ≤ slack := hs (now, slack) (by simp)
    have hrest : ∀ x ∈ rest, (0 : ℚ) ≤ x.2 := fun x hx => hs x (by simp [hx])
    have ihr := ih (throttleExit interval last0 now slack) hrest
    constructor
    · show List.Chain' _ (throttleExit interval last0 now slack ::
        throttleTrace interval (throttleExit interval last0 now slack) rest)
      rw [List.chain'_cons']
      exact ⟨ihr.2, ihr.1⟩
    · intro t ht
      simp only [throttleTrace, List.head?_cons, Option.mem_def,
        Option.some.injEq] at ht
      subst ht
      exact throttleExit_ge interval last0 now slack hs0

theorem rate_limit_compliance_witness :
    List.Chain' (fun t1 t2 => t1 + (2 : ℚ) ≤ t2)
        (throttleTrace 2 0 [((1 : ℚ), (0 : ℚ)), (2, 0), (10, 1)]) ∧
      (∀ t ∈ (throttleTrace 2 0 [((1 : ℚ), (0 : ℚ)), (2, 0), (10, 1)]).head?,
        (0 : ℚ) + 2 ≤ t) :=
  rate_limit_compliance 2 0 [((1 : ℚ), (0 : ℚ)), (2, 0), (10, 1)] (by decide)

/-! ## Watermark persistence (crawler/indexer.py, `save_last_indexed`,
lines 51-52) -/

/-- The successive contents of the watermark file during
`save_last_indexed(ts)`, which is `LAST_INDEXED.write_text(ts)`:
`Path.write_text` opens the file with mode `"w"` — truncating it in place —
and then writes the new text, so the observable on-disk contents pass through
`old`, then the truncated `""`, then `ts`. -/
def save_last_indexed_states (old ts : String) : List String :=
  [old, "", ts]

/-- Modelled from the spec: write-new-then-rename persistence (the new value
is written to a temporary file which is then atomically renamed over the
watermark file), so the watermark file itself only ever holds the complete
old value or the complete new value. -/
def atomic_save_states (old ts : String) : List String :=
  [old, ts]

/-- C8: the claimed write-new-then-rename atomicity fails on the code.  During
`save_last_indexed("2024-01-02T00:00:00Z")` over a file holding
`"2024-01-01T00:00:00Z"`, the watermark file passes through the truncated
state `""`, which is neither the complete old nor the complete new value —
unlike the spec-modelled atomic rename, whose states are always one of the
two.  (Spec §9 itself flags the source's open-write-close as the crash hazard
to fix, so the code, not the claim, is wrong.) -/
theorem watermark_save_not_atomic :
    ¬ (∀ c ∈ save_last_indexed_states "2024-01-01T00:00:00Z" "2024-01-02T00:00:00Z",
        c = "2024-01-01T00:00:00Z" ∨ c = "2024-01-02T00:00:00Z") ∧
      (∀ c ∈ atomic_save_states "2024-01-01T00:00:00Z" "2024-01-02T00:00:00Z",
        c = "2024-01-01T00:00:00Z" ∨ c = "2024-01-02T00:00:00Z") := by
  constructor
  · intro h
    have := h "" (by simp [save_last_indexed_states])
    simp at this
  · intro c hc
    simp only [atomic_save_states, List.mem_cons, List.not_mem_nil, or_false] at hc
    tauto

/-! ## Timestamp encoding (crawler/indexer.py, `iso_to_epoch`, lines 55-57)

`iso_to_epoch(ts)` is `int(datetime.fromisoformat(ts.rstrip("Z")).timestamp())`.
Stripping the `Z` suffix makes the datetime naive, and `timestamp()` of a
naive datetime interprets it in the process's LOCAL timezone; the local
timezone is modelled as a fixed offset of `off` seconds east of UTC (0 for a
UTC deployment).  `fromisoformat` is embedded on the canonical
`YYYY-MM-DDTHH:MM:SS` shape that the pipeline's own timestamps take, with the
`datetime` constructor's range checks; other inputs are modelled as a parse
failure (an exception in the Python code). -/

/-- `ts.rstrip("Z")`: remove every trailing `'Z'`. -/
def rstripZ (s : String) : String :=
  ⟨(s.data.reverse.dropWhile (fun c => c = 'Z')).reverse⟩

/-- Split a character list on a separator (like `str.split(sep)`:
`n` separators yield `n+1` groups, empty groups included). -/
def splitOnChar (sep : Char) : List Char → List (List Char)
  | [] => [[]]
  | c :: rest =>
    if c = sep then [] :: splitOnChar sep rest
    else
      match splitOnChar sep rest with
      | [] => [[c]]
      | g :: gs => (c :: g) :: gs

/-- Parse a nonempty all-digit character group as a decimal number. -/
def digitsToNat? (cs : List Char) : Option ℕ :=
  if cs ≠ [] ∧ cs.all (fun c => c.isDigit) then
    some (cs.foldl (fun n c => 10 * n + (c.toNat - 48)) 0)
  else none

/-- A naive civil datetime `(year, month, day, hour, minute, second)`. -/
structure NaiveDateTime where
  year : ℕ
  month : ℕ
  day : ℕ
  hour : ℕ
  minute : ℕ
  second : ℕ
deriving DecidableEq

/-- Gregorian leap-year rule (CPython `_is_leap`). -/
def isLeap (y : ℕ) : Bool :=
  decide ((y % 4 = 0 ∧ y % 100 ≠ 0) ∨ y % 400 = 0)

/-- CPython `_days_in_month`. -/
def daysInMonth (y m : ℕ) : ℕ :=
  if m = 2 then (if isLeap y then 29 else 28)
  else if m = 4 ∨ m = 6 ∨ m = 9 ∨ m = 11 then 30
  else 31

/-- `datetime.fromisoformat` on the canonical `YYYY-MM-DDTHH:MM:SS` shape. -/
def parseIsoNaive (s : String) : Option NaiveDateTime :=
  match splitOnChar 'T' s.data with
  | [datePart, timePart] =>
    match splitOnChar '-' datePart, splitOnChar ':' timePart with
    | [ys, ms, ds], [hs, mis, ss] =>
      match digitsToNat? ys, digitsToNat? ms, digitsToNat? ds,
          digitsToNat? hs, digitsToNat? mis, digitsToNat? ss with
      | some y, some m, some d, some h, some mi, some sec =>
        if ys.length = 4 ∧ ms.length = 2 ∧ ds.length = 2 ∧ hs.length = 2 ∧
            mis.length = 2 ∧ ss.length = 2 ∧
            1 ≤ y ∧ y ≤ 9999 ∧ 1 ≤ m ∧ m ≤ 12 ∧ 1 ≤ d ∧ d ≤ daysInMonth y m ∧
            h < 24 ∧ mi < 60 ∧ sec < 60 then
          some ⟨y, m, d, h, mi, sec⟩
        else none
      | _, _, _, _, _, _ => none
    | _, _ => none
  | _ => none

/-- CPython `_days_before_year`: days in the proleptic Gregorian calendar
before January 1st of `year`. -/
def days_before_year (y : ℕ) : ℕ :=
  (y - 1) * 365 + (y - 1) / 4 - (y - 1) / 100 + (y - 1) / 400

/-- CPython's `_DAYS_BEFORE_MONTH` table lookup plus the leap-day correction:
days in `year` preceding the first of `month`. -/
def days_before_month (y m : ℕ) : ℕ :=
  [0, 31, 59, 90, 120, 151, 181, 212, 243, 273, 304, 334].getD (m - 1) 0 +
    (if 2 < m ∧ isLeap y then 1 else 0)

/-- CPython `_ymd2ord` / `datetime.toordinal`: 1-based ordinal of the date. -/
def toordinal (dt : NaiveDateTime) : ℕ :=
  days_before_year dt.year + days_before_month dt.year dt.month + dt.day

/-- `int(dt.timestamp())` for a naive `dt` when the local timezone is a fixed
offset of `off` seconds east of UTC: seconds between the instant `dt - off`
and the epoch; `719163 = toordinal(1970-01-01)`. -/
def pyTimestamp (off : ℤ) (dt : NaiveDateTime) : ℤ :=
  ((toordinal dt : ℤ) - 719163) * 86400 +
    dt.hour * 3600 + dt.minute * 60 + dt.second - off

/-- `iso_to_epoch` (crawler/indexer.py, lines 55-57) under local-timezone
offset `off`: strip trailing `Z`s, parse as a naive datetime, take its
`timestamp()`. -/
def iso_to_epoch (off : ℤ) (ts : String) : Option ℤ :=
  (parseIsoNaive (rstripZ ts)).map (pyTimestamp off)

/-- Calendar length of year `y` in days. -/
def daysInYear (y : ℕ) : ℕ := if isLeap y then 366 else 365

/-- Reference definition: days from 1970-01-01 to January 1st of year
`1970 + n`, as the plain sum of calendar year lengths. -/
def yearDaysFrom1970 : ℕ → ℕ
  | 0 => 0
  | n + 1 => yearDaysFrom1970 n + daysInYear (1970 + n)

/-- Reference definition of the UTC epoch-seconds encoding of a civil
timestamp at or after 1970: whole days since 1970-01-01 — summed from
calendar year lengths and month lengths — times 86400, plus the seconds of
the day. -/
def specEpochSeconds (dt : NaiveDateTime) : ℤ :=
  ((yearDaysFrom1970 (dt.year - 1970) +
    (∑ j ∈ Finset.range (dt.month - 1), daysInMonth dt.year (j + 1)) +
    (dt.day - 1) : ℕ) : ℤ) * 86400 +
    dt.hour * 3600 + dt.minute * 60 + dt.second

set_option maxHeartbeats 1000000 in
theorem days_before_year_succ (y : ℕ) (hy : 1 ≤ y) :
    days_before_year (y + 1) = days_before_year y + daysInYear y := by
  have hleap : daysInYear y =
      if (y % 4 = 0 ∧ y % 100 ≠ 0) ∨ y % 400 = 0 then 366 else 365 := by
    simp [daysInYear, isLeap]
  rw [hleap]
  simp only [days_before_year, Nat.add_sub_cancel]
  split_ifs with h <;> omega

theorem days_before_year_1970_add (n : ℕ) :
    days_before_year (1970 + n) = 719162 + yearDaysFrom1970 n := by
  induction n with
  | zero => rfl
  | succ n ih =>
    have h : 1970 + (n + 1) = (1970 + n) + 1 := by omega
    rw [h, days_before_year_succ (1970 + n) (by omega), ih]
    show _ = 719162 + (yearDaysFrom1970 n + daysInYear (1970 + n))
    omega

theorem days_before_month_eq (y m : ℕ) (h1 : 1 ≤ m) (h2 : m ≤ 12) :
    days_before_month y m =
      ∑ j ∈ Finset.range (m - 1), daysInMonth y (j + 1) := by
  interval_cases m <;> cases h : isLeap y <;>
    simp [days_before_month, daysInMonth, Finset.sum_range_succ, h]

theorem pyTimestamp_eq_spec (dt : NaiveDateTime) (hy : 1970 ≤ dt.year)
    (hm1 : 1 ≤ dt.month) (hm2 : dt.month ≤ 12) (hd : 1 ≤ dt.day) :
    pyTimestamp 0 dt = specEpochSeconds dt := by
  unfold pyTimestamp specEpochSeconds toordinal
  have hyr : 1970 + (dt.year - 1970) = dt.year := by omega
  have h1 : days_before_year dt.year = 719162 + yearDaysFrom1970 (dt.year - 1970) := by
    have h2 := days_before_year_1970_add (dt.year - 1970)
    rwa [hyr] at h2
  rw [h1, days_before_month_eq dt.year dt.month hm1 hm2]
  push_cast
  have hcast : ((dt.day - 1 : ℕ) : ℤ) = (dt.day : ℤ) - 1 := by
    omega
  rw [hcast]
  ring

theorem parseIsoNaive_bounds (s : String) (dt : NaiveDateTime)
    (h : parseIsoNaive s = some dt) :
    1 ≤ dt.year ∧ 1 ≤ dt.month ∧ dt.month ≤ 12 ∧ 1 ≤ dt.day ∧
      dt.day ≤ daysInMonth dt.year dt.month ∧ dt.hour < 24 ∧ dt.minute < 60 ∧
      dt.second < 60 := by
  rw [parseIsoNaive] at h
  repeat' split at h
  all_goals first
    | exact Option.noConfusion h
    | (injection h with h2; subst h2; simp_all)

/-! ## Search documents built by the indexer (crawler/indexer.py,
`run_indexer`, lines 91-103) -/

/-- A document of the `news` search collection. -/
structure SearchDoc where
  id : String
  title : String
  body : String
  source : String
  tags : List String
  published_at : ℤ
  vec : List ℚ
deriving DecidableEq

/-- The Typesense document built from one article record inside the indexer
loop: `oid` renders the store-assigned `_id`, `embed` is the external
normalized sentence embedder applied to `title + "\n" + body`, and `off` is
the local-timezone offset that `iso_to_epoch` depends on.  A missing (null)
or empty `published_at` is falsy in `doc.get("published_at")`, so it encodes
to `0`; an unparseable one makes `iso_to_epoch` raise, modelled as `none`
(which aborts the tick). -/
def build_search_doc (oid : Article → String) (embed : String → List ℚ)
    (off : ℤ) (doc : Article) : Option SearchDoc :=
  match doc.published_at with
  | none => some ⟨oid doc, doc.title, doc.body, doc.source, doc.tags, 0,
      embed (doc.title ++ "\n" ++ doc.body)⟩
  | some s =>
    if s = "" then
      some ⟨oid doc, doc.title, doc.body, doc.source, doc.tags, 0,
        embed (doc.title ++ "\n" ++ doc.body)⟩
    else
      match iso_to_epoch off s with
      | none => none
      | some e => some ⟨oid doc, doc.title, doc.body, doc.source, doc.tags, e,
          embed (doc.title ++ "\n" ++ doc.body)⟩

/-- C9 counterexample: `iso_to_epoch` does not in general produce the epoch
seconds of the record's UTC timestamp, because stripping the `Z` makes the
datetime naive and `timestamp()` then uses the process-local timezone.  Under
a UTC+1 local timezone (offset 3600 s), the UTC timestamp
`1970-01-01T01:00:00Z` — whose epoch encoding is 3600 — is converted to 0. -/
theorem published_at_tz_counterexample :
    iso_to_epoch 3600 "1970-01-01T01:00:00Z" = some 0 ∧
      specEpochSeconds ⟨1970, 1, 1, 1, 0, 0⟩ = 3600 ∧ (0 : ℤ) ≠ 3600 := by
  refine ⟨by decide, ?_, by decide⟩
  show ((yearDaysFrom1970 (1970 - 1970) +
    (∑ j ∈ Finset.range (1 - 1), daysInMonth 1970 (j + 1)) + (1 - 1) : ℕ) : ℤ) * 86400 +
      (1 : ℕ) * 3600 + (0 : ℕ) * 60 + (0 : ℕ) = 3600
  norm_num [yearDaysFrom1970]

/-- C9 (amended): assuming the process-local timezone is UTC (offset 0 — the
naive `timestamp()` call makes the encoding shift by the local UTC offset
otherwise), the search document's `published_at` is the epoch seconds of the
record's canonical ISO-8601 UTC `published_at` timestamp — proved against an
independent calendar-sum definition of epoch seconds — and it is 0 when the
record's `published_at` is null or absent. -/
theorem published_at_encoding (oid : Article → String) (embed : String → List ℚ)
    (doc : Article) :
    (doc.published_at = none →
      (build_search_doc oid embed 0 doc).map SearchDoc.published_at = some 0) ∧
      (∀ s dt, doc.published_at = some s → parseIsoNaive (rstripZ s) = some dt →
        1970 ≤ dt.year →
        (build_search_doc oid embed 0 doc).map SearchDoc.published_at =
          some (specEpochSeconds dt)) := by
  constructor
  · intro h
    simp [build_search_doc, h]
  · intro s dt hs hparse hy
    have hbounds := parseIsoNaive_bounds _ _ hparse
    have hne : s ≠ "" := by
      intro he
      rw [he, show rstripZ "" = "" from rfl, show parseIsoNaive "" = none from rfl] at hparse
      exact Option.noConfusion hparse
    have hepoch : iso_to_epoch 0 s = some (pyTimestamp 0 dt) := by
      rw [iso_to_epoch, hparse]
      rfl
    simp only [build_search_doc, hs, if_neg hne, hepoch, Option.map_some]
    rw [pyTimestamp_eq_spec dt hy hbounds.2.1 hbounds.2.2.1 hbounds.2.2.2.1]
    rfl

/-- A concrete article record used by the closed witness theorems below. -/
def artSample : Article :=
  { url := "http://a.example/x", canonical_url := "http://a.example/x",
    source := "a.example", title := "T", body := "B", author := none,
    tags := [], published_at := some "2024-05-17T10:30:00Z",
    fetched_at := "2024-05-17T11:00:00Z", hash := "h",
    updated := "2024-05-17T11:00:01Z" }

theorem published_at_encoding_witness :
    (build_search_doc (fun _ => "id1") (fun _ => []) 0 artSample).map
        SearchDoc.published_at =
      some (specEpochSeconds ⟨2024, 5, 17, 10, 30, 0⟩) :=
  (published_at_encoding (fun _ => "id1") (fun _ => []) artSample).2
    "2024-05-17T10:30:00Z" ⟨2024, 5, 17, 10, 30, 0⟩ rfl (by decide) (by decide)

/-! ## The indexer tick (crawler/indexer.py, `run_indexer`, lines 83-118) -/

/-- The `async for doc in cursor` loop of `run_indexer`: `enc` builds the
search document for a record (`none` models an exception, e.g. an unparseable
`published_at`); `fail bi` tells whether the `bi`-th bulk `import_` call
raises; `batch` is `docs_to_index`; `newLast` is the in-memory `new_last_ts`.
Each record is staged and `new_last_ts` is set to its `updated`; when the
batch reaches 500 documents it is imported and reset.  `none` models an
exception propagating out of `run_indexer` (the tick aborts);
`some (batch, bi, newLast)` is the state after the loop. -/
def indexLoop (enc : Article → Option SearchDoc) (fail : ℕ → Bool) :
    List Article → List SearchDoc → ℕ → String →
      Option (List SearchDoc × ℕ × String)
  | [], batch, bi, newLast => some (batch, bi, newLast)
  | doc :: rest, batch, bi, _newLast =>
    match enc doc with
    | none => none
    | some sd =>
      if 500 ≤ (batch ++ [sd]).length then
        if fail bi then none
        else indexLoop enc fail rest [] (bi + 1) doc.updated
      else indexLoop enc fail rest (batch ++ [sd]) bi doc.updated

/-- One tick of `run_indexer` after loading the watermark `last` and querying
the store (`docs` is the query result, sorted ascending by `updated` and —
when `last` is nonempty — filtered to `updated > last`).  After the loop the
remaining partial batch is imported, and `save_last_indexed(new_last_ts)` runs
only when `new_last_ts` is truthy and differs from `last`.  The result is
`none` when an exception aborted the tick (no save happens), and
`some w` with `w` the watermark value persisted on disk after the tick
otherwise. -/
def run_indexer_tick (enc : Article → Option SearchDoc) (fail : ℕ → Bool)
    (last : String) (docs : List Article) : Option String :=
  match indexLoop enc fail docs [] 0 last with
  | none => none
  | some (batch, bi, newLast) =>
    if batch.isEmpty then
      some (if newLast ≠ "" ∧ newLast ≠ last then newLast else last)
    else if fail bi then none
    else some (if newLast ≠ "" ∧ newLast ≠ last then newLast else last)

/-- The watermark on disk after a tick: unchanged when the tick aborted. -/
def tick_persisted (enc : Article → Option SearchDoc) (fail : ℕ → Bool)
    (last : String) (docs : List Article) : String :=
  (run_indexer_tick enc fail last docs).getD last

theorem not_lt_empty_string (s : String) : ¬ s < "" := by
  rw [String.lt_iff_toList_lt]
  intro h
  generalize hL : s.toList = L at h
  cases h

theorem empty_string_le (s : String) : "" ≤ s :=
  le_of_not_lt (not_lt_empty_string s)

theorem sorted_le_getLastD : ∀ (l : List String), l.Pairwise (· ≤ ·) →
    ∀ x ∈ l, ∀ d, x ≤ l.getLastD d := by
  intro l
  induction l with
  | nil => intro _ x hx; exact absurd hx (List.not_mem_nil x)
  | cons a t ih =>
    intro hp x hx d
    rw [List.getLastD_cons]
    rcases List.mem_cons.mp hx with rfl | hxt
    · cases t with
      | nil => exact le_refl x
      | cons b t' =>
        have hmem : (b :: t').getLastD x ∈ x :: b :: t' :=
          List.getLastD_mem_cons (b :: t') x
        rcases List.mem_cons.mp hmem with he | hmem'
        · exact le_of_eq he.symm
        · exact (List.pairwise_cons.mp hp).1 _ hmem'
    · exact ih (List.pairwise_cons.mp hp).2 x hxt a

theorem indexLoop_newLast (enc : Article → Option SearchDoc) (fail : ℕ → Bool) :
    ∀ (docs : List Article) (batch : List SearchDoc) (bi : ℕ) (nl : String) res,
      indexLoop enc fail docs batch bi nl = some res →
      res.2.2 = (docs.map Article.updated).getLastD nl := by
  intro docs
  induction docs with
  | nil =>
    intro batch bi nl res h
    simp only [indexLoop, Option.some.injEq] at h
    rw [← h]
    rfl
  | cons doc rest ih =>
    intro batch bi nl res h
    rw [List.map_cons, List.getLastD_cons]
    simp only [indexLoop] at h
    split at h
    · exact Option.noConfusion h
    · rename_i sd henc
      split at h
      · split at h
        · exact Option.noConfusion h
        · exact ih [] (bi + 1) doc.updated res h
      · exact ih (batch ++ [sd]) bi doc.updated res h

theorem run_indexer_tick_some (enc : Article → Option SearchDoc)
    (fail : ℕ → Bool) (last : String) (docs : List Article) (w : String)
    (h : run_indexer_tick enc fail last docs = some w) :
    ∃ batch bi newLast,
      indexLoop enc fail docs [] 0 last = some (batch, bi, newLast) ∧
        w = if newLast ≠ "" ∧ newLast ≠ last then newLast else last := by
  unfold run_indexer_tick at h
  split at h
  · exact Option.noConfusion h
  · rename_i batch bi newLast heq
    refine ⟨_, _, _, heq, ?_⟩
    split at h
    · exact (Option.some.injEq _ _ ▸ h).symm
    · split at h
      · exact Option.noConfusion h
      · exact (Option.some.injEq _ _ ▸ h).symm

/-- C1: for every indexer tick over a store query result `docs` that is
sorted ascending by `updated` and (per the Mongo filter) contains only
documents with `updated > last` when `last` is nonempty: if the tick
completes (no batch import fails and every document encodes), the persisted
watermark is ≥ its prior value and is the maximum `updated` among the
documents imported in the tick (a member of the batch that dominates all of
them) whenever any document was imported; if any import fails, the save is
never reached and the watermark keeps its prior value. -/
theorem watermark_monotonic (enc : Article → Option SearchDoc) (fail : ℕ → Bool)
    (last : String) (docs : List Article)
    (hsort : (docs.map Article.updated).Pairwise (· ≤ ·))
    (hgt : last = "" ∨ ∀ d ∈ docs, last < d.updated) :
    last ≤ tick_persisted enc fail last docs ∧
      (run_indexer_tick enc fail last docs = none →
        tick_persisted enc fail last docs = last) ∧
      (∀ w, run_indexer_tick enc fail last docs = some w → docs ≠ [] →
        w ∈ docs.map Article.updated ∧ ∀ u ∈ docs.map Article.updated, u ≤ w) := by
  match hrun : run_indexer_tick enc fail last docs with
  | none =>
    have hpers : tick_persisted enc fail last docs = last := by
      simp [tick_persisted, hrun]
    exact ⟨by rw [hpers], fun _ => hpers, fun w hw _ => Option.noConfusion hw⟩
  | some w =>
    have hpers : tick_persisted enc fail last docs = w := by
      simp [tick_persisted, hrun]
    obtain ⟨batch, bi, newLast, hloop, hw⟩ :=
      run_indexer_tick_some enc fail last docs w hrun
    have hnl : newLast = (docs.map Article.updated).getLastD last :=
      indexLoop_newLast enc fail docs [] 0 last (batch, bi, newLast) hloop
    cases docs with
    | nil =>
      have hnl' : newLast = last := by rw [hnl]; rfl
      have hwl : w = last := by
        rw [hw, hnl']
        simp
      exact ⟨by rw [hpers, hwl], fun hcon => by rw [hpers, hwl],
        fun w' hw' hne => absurd rfl hne⟩
    | cons doc0 rest =>
      have hmem : newLast ∈ (doc0 :: rest).map Article.updated := by
        rw [hnl, List.map_cons, List.getLastD_cons]
        exact List.getLastD_mem_cons _ _
      have hmax : ∀ u ∈ (doc0 :: rest).map Article.updated, u ≤ newLast := by
        intro u hu
        rw [hnl]
        exact sorted_le_getLastD _ hsort u hu last
      have hlast_le : last ≤ newLast := by
        rcases hgt with hg | hg
        · rw [hg]; exact empty_string_le newLast
        · rcases List.mem_map.mp hmem with ⟨d, hd', hdu⟩
          exact le_of_lt (hdu ▸ hg d hd')
      have hwnl : w = newLast := by
        by_cases hne : newLast = last
        · subst hne
          rw [hw]
          simp
        · have hnemp : newLast ≠ "" := by
            intro hemp
            rcases hgt with hg | hg
            · exact hne (hemp.trans hg.symm)
            · rcases List.mem_map.mp hmem with ⟨d, hd', hdu⟩
              have hlt := hg d hd'
              rw [hdu, hemp] at hlt
              exact not_lt_empty_string last hlt
          rw [hw, if_pos ⟨hnemp, hne⟩]
      refine ⟨by rw [hpers, hwnl]; exact hlast_le,
        fun hcon => Option.noConfusion hcon, fun w' hw' _ => ?_⟩
      have hww : w = w' := Option.some.inj hw'
      rw [← hww, hwnl]
      exact ⟨hmem, hmax⟩

/-- A concrete search document for the closed witness below. -/
def sdocSample : SearchDoc :=
  ⟨"id1", "T", "B", "a.example", [], 0, []⟩

theorem watermark_monotonic_witness :
    "" ≤ tick_persisted (fun _ => some sdocSample) (fun _ => false) "" [artSample] ∧
      (run_indexer_tick (fun _ => some sdocSample) (fun _ => false) "" [artSample] = none →
        tick_persisted (fun _ => some sdocSample) (fun _ => false) "" [artSample] = "") ∧
      (∀ w, run_indexer_tick (fun _ => some sdocSample) (fun _ => false) "" [artSample] =
          some w → [artSample] ≠ [] →
        w ∈ [artSample].map Article.updated ∧
          ∀ u ∈ [artSample].map Article.updated, u ≤ w) :=
  watermark_monotonic (fun _ => some sdocSample) (fun _ => false) "" [artSample]
    (by decide) (Or.inl rfl)

end Crawler
